import Mathlib

/-!
Shallow embedding of the `bloom` Go package: a partitioned bloom filter
(`Filter` in `bloom.go`, helpers in `utils.go`) and a scalable variant
(`ScalableFilter`).  Machine `uint64` values are modelled as `Nat`; for every
filter that can actually be allocated (`size` bytes of memory) all the
arithmetic below stays far under `2^64`, so no wrap-around is modelled except
inside `popcount`, whose final multiplication genuinely overflows and is
truncated with an explicit `% 2^64`.  The cryptographic digest primitives
(md5/sha1/sha256/sha384/sha512) are external collaborators; they enter the
model only through their output lengths and as function parameters.
-/

namespace Bloom

/-- Outcome of a Go computation: a normal return, a returned `error`, or a
runtime panic that terminates the process. -/
inductive GoResult (α : Type) where
  | ok (a : α)
  | err (msg : String)
  | panicked (msg : String)

/-- Source `Filter` struct from `bloom.go`: byte array `arr`, byte length `Size`,
hash count `k`, `inserted` counter, and the stored hash capability
`hasher : func([]byte) []uint64` (modelled on Go strings directly, since the
only call sites convert a `string` to `[]byte`). -/
structure Filter where
  arr : List Nat
  size : Nat
  k : Nat
  inserted : Nat
  hasher : String → List Nat

instance : Inhabited Filter := ⟨⟨[], 0, 0, 0, fun _ => []⟩⟩

/-- Source `New(size, k)` from `bloom.go`: zeroed byte array of length `size`,
`inserted = 0`.  The source stores `generateHasher(k, size*8)` in the
`hasher` field; its digest core is an external crypto primitive, so the
generated hash function is taken as a parameter here (the claims hold for
every hasher). -/
def New (size k : Nat) (hasher : String → List Nat) : Filter :=
  ⟨List.replicate size 0, size, k, 0, hasher⟩

/-- Source `setBit` from `utils.go`: `bf.arr[n/8] |= (1 << (n % 8))`. -/
def setBit (bf : Filter) (n : Nat) : Filter :=
  { bf with arr := bf.arr.set (n / 8) (bf.arr.getD (n / 8) 0 ||| (1 <<< (n % 8))) }

/-- Source `isSet` from `utils.go`: `(bf.arr[n/8] & (1 << (n % 8))) > 0`. -/
def isSet (bf : Filter) (n : Nat) : Bool :=
  decide (0 < bf.arr.getD (n / 8) 0 &&& (1 <<< (n % 8)))

/-- Source `sectionSize := (bf.Size * 8) / bf.k`, computed identically at the top of
`Feed` and `Match` in `bloom.go`. -/
def sectionSize (bf : Filter) : Nat := bf.size * 8 / bf.k

/-- The `k` bit addresses probed by both `Feed` and `Match` in `bloom.go`:
for `hid` in `0..k-1`, `hid*sectionSize + (hashs[hid] % sectionSize)`.
`hashs[hid]` is modelled with `getD _ 0`; the source hasher always returns
exactly `k` words (see `makeHashes_length`). -/
def addresses (bf : Filter) (s : String) : List Nat :=
  (List.range bf.k).map
    (fun hid => hid * sectionSize bf + (bf.hasher s).getD hid 0 % sectionSize bf)

/-- Source `Match` from `bloom.go`: true iff every one of the `k` addressed bits is
set (the source loop returns false on the first clear bit). -/
def Match (bf : Filter) (s : String) : Bool :=
  (addresses bf s).all (fun a => isSet bf a)

/-- Source `Feed` from `bloom.go`: set each of the `k` addressed bits, then
increment `inserted`. -/
def Feed (bf : Filter) (s : String) : Filter :=
  let fed := (addresses bf s).foldl setBit bf
  { fed with inserted := fed.inserted + 1 }

/-- A sequence of `Feed` calls. -/
def feedAll (bf : Filter) (l : List String) : Filter := l.foldl Feed bf

/-- Source `Reset` from `bloom.go`: `bf.arr = make([]byte, bf.Size)`. -/
def Reset (bf : Filter) : Filter := { bf with arr := List.replicate bf.size 0 }

/-- Source `Merge` from `bloom.go`, returning the (possibly updated) receiver
together with the Go `error` value: mismatched `Size` or `k` returns an
error before any write; otherwise `bf.arr[i] |= oth.arr[i]` for
`i < bf.Size`. -/
def Merge (bf oth : Filter) : Filter × Option String :=
  if bf.size ≠ oth.size then
    (bf, some "incompatible filters size for merge")
  else if bf.k ≠ oth.k then
    (bf, some "hashes functions must be the same to perform merge")
  else
    let merged := (List.range bf.size).foldl
      (fun a i => a.set i (a.getD i 0 ||| oth.arr.getD i 0)) bf.arr
    ({ bf with arr := merged }, none)

/-- Source `popcount` from `utils.go` (SWAR population count on a `uint64`).  The
final multiply overflows `uint64` by design, hence the explicit `% 2^64`;
the earlier steps never overflow nor borrow for inputs `< 2^64`. -/
def popcount (x : Nat) : Nat :=
  let x1 := x - ((x >>> 1) &&& 0x5555555555555555)
  let x2 := ((x1 >>> 2) &&& 0x3333333333333333) + (x1 &&& 0x3333333333333333)
  let x3 := x2 + (x2 >>> 4)
  let x4 := x3 &&& 0x0f0f0f0f0f0f0f0f
  ((x4 * 0x0101010101010101) % (2 ^ 64)) >>> 56

/-- Source `popcntSliceGo` from `utils.go`: sum of per-byte popcounts. -/
def popcntSliceGo (s : List Nat) : Nat :=
  s.foldl (fun cnt x => cnt + popcount x) 0

/-- Source `FillRatio` from `bloom.go`, with the `float64` division modelled
exactly in `ℚ`. -/
def fillRatioQ (bf : Filter) : ℚ :=
  (popcntSliceGo bf.arr : ℚ) / ((bf.size : ℚ) * 8)

/-- Source `EstimateFillRatio` from `bloom.go`, with the `float64` arithmetic
modelled exactly in `ℚ`:
`1 - (1 - 1/((Size*8)/k))^inserted` (the inner division is the real one Go
performs on `float64`, not integer division). -/
def estimateFillRatioQ (bf : Filter) : ℚ :=
  1 - (1 - 1 / (((bf.size : ℚ) * 8) / (bf.k : ℚ))) ^ bf.inserted

/-! ### Bit-level lemmas about `setBit` / `isSet` -/

theorem decide_and_two_pow (x j : Nat) :
    decide (0 < x &&& (1 <<< j)) = x.testBit j := by
  rw [Nat.shiftLeft_eq, one_mul, Nat.and_two_pow]
  cases h : x.testBit j <;> simp [h, Nat.pos_pow_of_pos]

theorem isSet_eq_testBit (bf : Filter) (n : Nat) :
    isSet bf n = (bf.arr.getD (n / 8) 0).testBit (n % 8) := by
  unfold isSet
  exact decide_and_two_pow _ _

@[simp] theorem size_setBit (bf : Filter) (m : Nat) : (setBit bf m).size = bf.size := rfl

@[simp] theorem k_setBit (bf : Filter) (m : Nat) : (setBit bf m).k = bf.k := rfl

@[simp] theorem hasher_setBit (bf : Filter) (m : Nat) : (setBit bf m).hasher = bf.hasher := rfl

@[simp] theorem inserted_setBit (bf : Filter) (m : Nat) :
    (setBit bf m).inserted = bf.inserted := rfl

@[simp] theorem length_arr_setBit (bf : Filter) (m : Nat) :
    (setBit bf m).arr.length = bf.arr.length := by
  simp [setBit]

theorem isSet_setBit (bf : Filter) (m n : Nat) :
    isSet (setBit bf m) n =
      (isSet bf n || (decide (n = m) && decide (m / 8 < bf.arr.length))) := by
  simp only [isSet_eq_testBit, setBit, List.getD_eq_getElem?_getD, List.getElem?_set]
  by_cases h8 : m / 8 = n / 8
  · rw [if_pos h8]
    by_cases hlen : m / 8 < bf.arr.length
    · rw [if_pos hlen]
      simp only [Option.getD_some, Nat.testBit_or]
      rw [Nat.shiftLeft_eq, one_mul]
      by_cases hmn : n = m
      · subst hmn
        simp [Nat.testBit_two_pow_self, hlen, List.getD_eq_getElem?_getD]
      · have hne : m % 8 ≠ n % 8 := by omega
        simp [Nat.testBit_two_pow_of_ne hne, hmn, List.getD_eq_getElem?_getD, h8]
    · rw [if_neg hlen]
      have hn : bf.arr.length ≤ n / 8 := by omega
      have : bf.arr[n / 8]? = none := by
        simp [List.getElem?_eq_none_iff]
        omega
      simp [this, hlen]
  · rw [if_neg h8]
    have hmn : n ≠ m := by omega
    simp [hmn]

theorem isSet_foldl_setBit (l : List Nat) (bf : Filter) (n : Nat) :
    isSet (l.foldl setBit bf) n =
      (isSet bf n || l.any (fun m => decide (n = m) && decide (m / 8 < bf.arr.length))) := by
  induction l generalizing bf with
  | nil => simp
  | cons m t ih =>
    simp only [List.foldl_cons, List.any_cons, ih, isSet_setBit, length_arr_setBit]
    cases isSet bf n <;> simp [Bool.or_assoc]

theorem foldl_setBit_preserved (l : List Nat) (bf : Filter) :
    (l.foldl setBit bf).size = bf.size ∧ (l.foldl setBit bf).k = bf.k ∧
    (l.foldl setBit bf).hasher = bf.hasher ∧
    (l.foldl setBit bf).inserted = bf.inserted ∧
    (l.foldl setBit bf).arr.length = bf.arr.length := by
  induction l generalizing bf with
  | nil => simp
  | cons m t ih =>
    simpa [setBit] using ih (setBit bf m)

/-! ### `Feed` structure lemmas -/

@[simp] theorem size_Feed (bf : Filter) (s : String) : (Feed bf s).size = bf.size :=
  (foldl_setBit_preserved _ _).1

@[simp] theorem k_Feed (bf : Filter) (s : String) : (Feed bf s).k = bf.k :=
  (foldl_setBit_preserved _ _).2.1

@[simp] theorem hasher_Feed (bf : Filter) (s : String) : (Feed bf s).hasher = bf.hasher :=
  (foldl_setBit_preserved _ _).2.2.1

@[simp] theorem inserted_Feed (bf : Filter) (s : String) :
    (Feed bf s).inserted = bf.inserted + 1 := by
  show ((addresses bf s).foldl setBit bf).inserted + 1 = bf.inserted + 1
  rw [(foldl_setBit_preserved _ _).2.2.2.1]

@[simp] theorem length_arr_Feed (bf : Filter) (s : String) :
    (Feed bf s).arr.length = bf.arr.length :=
  (foldl_setBit_preserved _ _).2.2.2.2

theorem addresses_congr (bf bf' : Filter) (s : String) (hs : bf'.size = bf.size)
    (hk : bf'.k = bf.k) (hh : bf'.hasher = bf.hasher) :
    addresses bf' s = addresses bf s := by
  simp [addresses, sectionSize, hs, hk, hh]

theorem addresses_Feed (bf : Filter) (t s : String) :
    addresses (Feed bf t) s = addresses bf s :=
  addresses_congr _ _ _ (size_Feed _ _) (k_Feed _ _) (hasher_Feed _ _)

theorem isSet_Feed (bf : Filter) (s : String) (n : Nat) :
    isSet (Feed bf s) n =
      (isSet bf n ||
        (addresses bf s).any (fun m => decide (n = m) && decide (m / 8 < bf.arr.length))) := by
  have : isSet (Feed bf s) n = isSet ((addresses bf s).foldl setBit bf) n := rfl
  rw [this, isSet_foldl_setBit]

theorem isSet_mono_Feed (bf : Filter) (t : String) (n : Nat)
    (h : isSet bf n = true) : isSet (Feed bf t) n = true := by
  rw [isSet_Feed, h, Bool.true_or]

theorem isSet_mono_feedAll (l : List String) (bf : Filter) (n : Nat)
    (h : isSet bf n = true) : isSet (feedAll bf l) n = true := by
  induction l generalizing bf with
  | nil => exact h
  | cons t ts ih => exact ih (Feed bf t) (isSet_mono_Feed bf t n h)

theorem feedAll_preserved (l : List String) (bf : Filter) :
    (feedAll bf l).size = bf.size ∧ (feedAll bf l).k = bf.k ∧
    (feedAll bf l).hasher = bf.hasher ∧ (feedAll bf l).arr.length = bf.arr.length := by
  induction l generalizing bf with
  | nil => exact ⟨rfl, rfl, rfl, rfl⟩
  | cons t ts ih =>
    obtain ⟨h1, h2, h3, h4⟩ := ih (Feed bf t)
    exact ⟨by simp [feedAll, List.foldl_cons] at h1 ⊢; exact h1,
           by simp [feedAll, List.foldl_cons] at h2 ⊢; exact h2,
           by simp [feedAll, List.foldl_cons] at h3 ⊢; exact h3,
           by simp [feedAll, List.foldl_cons] at h4 ⊢; exact h4⟩

theorem isSet_Feed_self (bf : Filter) (s : String) (a : Nat)
    (ha : a ∈ addresses bf s) (hlen : a / 8 < bf.arr.length) :
    isSet (Feed bf s) a = true := by
  rw [isSet_Feed]
  refine Bool.or_eq_true_iff.mpr (Or.inr ?_)
  exact List.any_eq_true.mpr ⟨a, ha, by simp [hlen]⟩

/-! ### Address bounds -/

theorem sectionSize_pos (bf : Filter) (hk1 : 1 ≤ bf.k) (hk2 : bf.k ≤ bf.size * 8) :
    1 ≤ sectionSize bf := by
  unfold sectionSize
  exact (Nat.le_div_iff_mul_le hk1).mpr (by omega)

theorem addresses_lt (bf : Filter) (s : String) (hk1 : 1 ≤ bf.k)
    (hk2 : bf.k ≤ bf.size * 8) :
    ∀ a ∈ addresses bf s, a < bf.size * 8 := by
  intro a ha
  simp only [addresses, List.mem_map, List.mem_range] at ha
  obtain ⟨hid, hhid, rfl⟩ := ha
  have ss1 : 1 ≤ sectionSize bf := sectionSize_pos bf hk1 hk2
  have hmod : (bf.hasher s).getD hid 0 % sectionSize bf < sectionSize bf :=
    Nat.mod_lt _ ss1
  have hk' : (hid + 1) * sectionSize bf ≤ bf.k * sectionSize bf :=
    Nat.mul_le_mul_right _ hhid
  have hdiv : bf.size * 8 / bf.k * bf.k ≤ bf.size * 8 := Nat.div_mul_le_self _ _
  have : bf.k * sectionSize bf ≤ bf.size * 8 := by
    unfold sectionSize
    rw [Nat.mul_comm]
    exact hdiv
  nlinarith [hmod, hk', this]

/-! ### Idempotence helpers -/

theorem set_own_getD (l : List Nat) (i : Nat) : l.set i (l.getD i 0) = l := by
  apply List.ext_getElem?
  intro n
  rw [List.getElem?_set]
  by_cases h : i = n
  · subst h
    by_cases hl : i < l.length
    · simp [hl, List.getD_eq_getElem?_getD, List.getElem?_eq_getElem hl]
    · have hnone : l[i]? = none := List.getElem?_eq_none_iff.mpr (by omega)
      simp [hl, hnone]
  · simp [h]

theorem or_two_pow_of_testBit (b j : Nat) (h : b.testBit j = true) : b ||| 2 ^ j = b := by
  apply Nat.eq_of_testBit_eq
  intro i
  rw [Nat.testBit_or]
  by_cases hij : j = i
  · subst hij
    simp [h]
  · simp [Nat.testBit_two_pow_of_ne hij]

theorem setBit_noop (bf : Filter) (a : Nat) (h : isSet bf a = true) : setBit bf a = bf := by
  have hb : bf.arr.getD (a / 8) 0 ||| 1 <<< (a % 8) = bf.arr.getD (a / 8) 0 := by
    rw [Nat.shiftLeft_eq, one_mul]
    exact or_two_pow_of_testBit _ _ (by rw [← isSet_eq_testBit]; exact h)
  unfold setBit
  rw [hb, set_own_getD]

theorem foldl_setBit_noop (l : List Nat) (bf : Filter)
    (h : ∀ a ∈ l, isSet bf a = true) : l.foldl setBit bf = bf := by
  induction l with
  | nil => rfl
  | cons a t ih =>
    rw [List.foldl_cons, setBit_noop bf a (h a (by simp))]
    exact ih (fun b hb => h b (by simp [hb]))

theorem addresses_div_lt (bf : Filter) (s : String) (hk1 : 1 ≤ bf.k)
    (hk2 : bf.k ≤ bf.size * 8) (hlen : bf.arr.length = bf.size) :
    ∀ a ∈ addresses bf s, a / 8 < bf.arr.length := by
  intro a ha
  have := addresses_lt bf s hk1 hk2 a ha
  rw [hlen]
  omega

/-! ### Claim theorems: C1, C7, C10 -/

/-- C1: for every string `s` and every filter built by `New(size, k)` with
`size ≥ 1` and `1 ≤ k ≤ size*8`, `Feed(s)` followed by `Match(s)` yields
`true`, regardless of the other elements fed before the `Feed` or between the
`Feed` and the `Match`; the hasher (any stored hash capability) is a
parameter. -/
theorem c1_no_false_negatives (size k : Nat) (hasher : String → List Nat)
    (hsize : 1 ≤ size) (hk1 : 1 ≤ k) (hk2 : k ≤ size * 8)
    (pre post : List String) (s : String) :
    Match (feedAll (Feed (feedAll (New size k hasher) pre) s) post) s = true := by
  obtain ⟨p1, p2, p3, p4⟩ := feedAll_preserved pre (New size k hasher)
  have hnew : (New size k hasher).arr.length = size := by simp [New]
  set bf1 := feedAll (New size k hasher) pre with hbf1
  have hk1' : 1 ≤ bf1.k := by rw [p2]; exact hk1
  have hk2' : bf1.k ≤ bf1.size * 8 := by rw [p2, p1]; exact hk2
  have hlen1 : bf1.arr.length = bf1.size := by rw [p4, p1]; simp [New]
  have hset : ∀ a ∈ addresses bf1 s, isSet (Feed bf1 s) a = true := by
    intro a ha
    exact isSet_Feed_self bf1 s a ha (addresses_div_lt bf1 s hk1' hk2' hlen1 a ha)
  set bf3 := feedAll (Feed bf1 s) post with hbf3
  obtain ⟨q1, q2, q3, q4⟩ := feedAll_preserved post (Feed bf1 s)
  have haddr : addresses bf3 s = addresses bf1 s := by
    apply addresses_congr
    · rw [q1, size_Feed]
    · rw [q2, k_Feed]
    · rw [q3, hasher_Feed]
  rw [Match, haddr, List.all_eq_true]
  intro a ha
  exact isSet_mono_feedAll post (Feed bf1 s) a (hset a ha)

/-- Closed witness for `c1_no_false_negatives` at `size = 1`, `k = 1`, a
constant hasher, `pre = ["a"]`, `post = ["b"]`, `s = "x"`. -/
theorem c1_no_false_negatives_witness :
    Match (feedAll (Feed (feedAll (New 1 1 (fun _ => [0])) ["a"]) "x") ["b"]) "x" = true :=
  c1_no_false_negatives 1 1 (fun _ => [0]) (by decide) (by decide) (by decide) ["a"] ["b"] "x"

/-- C7: `Feed(s)` sets exactly the bits at the `k` partition addresses
`i * sectionSize + (hash[i] mod sectionSize)` (every other bit is unchanged)
and increments `inserted`; feeding the same string again changes no bits but
still increments the counter. -/
theorem c7_feed_effect (bf : Filter) (s : String)
    (hlen : bf.arr.length = bf.size) (hk1 : 1 ≤ bf.k) (hk2 : bf.k ≤ bf.size * 8) :
    (Feed bf s).inserted = bf.inserted + 1 ∧
    (∀ n, isSet (Feed bf s) n = (isSet bf n || decide (n ∈ addresses bf s))) ∧
    (Feed (Feed bf s) s).arr = (Feed bf s).arr ∧
    (Feed (Feed bf s) s).inserted = bf.inserted + 2 := by
  have hdiv := addresses_div_lt bf s hk1 hk2 hlen
  refine ⟨inserted_Feed bf s, ?_, ?_, ?_⟩
  · intro n
    rw [isSet_Feed]
    congr 1
    by_cases hn : n ∈ addresses bf s
    · rw [decide_eq_true hn]
      exact List.any_eq_true.mpr ⟨n, hn, by simp [hdiv n hn]⟩
    · rw [decide_eq_false hn]
      rw [List.any_eq_false]
      intro m hm
      simp only [Bool.and_eq_true, decide_eq_true_eq, not_and]
      intro hnm
      exact absurd (hnm ▸ hm) hn
  · have hset : ∀ a ∈ addresses (Feed bf s) s, isSet (Feed bf s) a = true := by
      intro a ha
      rw [addresses_Feed] at ha
      exact isSet_Feed_self bf s a ha (hdiv a ha)
    show ((addresses (Feed bf s) s).foldl setBit (Feed bf s)).arr = (Feed bf s).arr
    rw [foldl_setBit_noop _ _ hset]
  · rw [inserted_Feed, inserted_Feed]

/-- Closed witness for `c7_feed_effect` at a concrete filter. -/
theorem c7_feed_effect_witness :
    (Feed (New 2 1 (fun _ => [3])) "y").inserted = 0 + 1 ∧
    (∀ n, isSet (Feed (New 2 1 (fun _ => [3])) "y") n =
      (isSet (New 2 1 (fun _ => [3])) n ||
        decide (n ∈ addresses (New 2 1 (fun _ => [3])) "y"))) ∧
    (Feed (Feed (New 2 1 (fun _ => [3])) "y") "y").arr =
      (Feed (New 2 1 (fun _ => [3])) "y").arr ∧
    (Feed (Feed (New 2 1 (fun _ => [3])) "y") "y").inserted = 0 + 2 :=
  c7_feed_effect (New 2 1 (fun _ => [3])) "y" (by decide) (by decide) (by decide)

/-- C10: for a filter built by `New(size, k)` with `size ≥ 1`,
`1 ≤ k ≤ size*8` (after any sequence of feeds), `sectionSize` is nonzero and
every bit address computed by `Feed`/`Match` is `< size*8`, so the byte index
`address / 8` is strictly inside the buffer. -/
theorem c10_accesses_in_bounds (size k : Nat) (hasher : String → List Nat)
    (hsize : 1 ≤ size) (hk1 : 1 ≤ k) (hk2 : k ≤ size * 8)
    (l : List String) (s : String) :
    1 ≤ sectionSize (feedAll (New size k hasher) l) ∧
    ∀ a ∈ addresses (feedAll (New size k hasher) l) s,
      a < size * 8 ∧ a / 8 < (feedAll (New size k hasher) l).arr.length := by
  obtain ⟨p1, p2, p3, p4⟩ := feedAll_preserved l (New size k hasher)
  set bf := feedAll (New size k hasher) l with hbf
  have hk1' : 1 ≤ bf.k := by rw [p2]; exact hk1
  have hk2' : bf.k ≤ bf.size * 8 := by rw [p2, p1]; exact hk2
  have hlen : bf.arr.length = bf.size := by rw [p4, p1]; simp [New]
  refine ⟨sectionSize_pos bf hk1' hk2', fun a ha => ⟨?_, ?_⟩⟩
  · have := addresses_lt bf s hk1' hk2' a ha
    rw [p1] at this
    exact this
  · exact addresses_div_lt bf s hk1' hk2' hlen a ha

/-- Closed witness for `c10_accesses_in_bounds` at `size = 2`, `k = 3`. -/
theorem c10_accesses_in_bounds_witness :
    1 ≤ sectionSize (feedAll (New 2 3 (fun _ => [9, 9, 9])) ["a"]) ∧
    ∀ a ∈ addresses (feedAll (New 2 3 (fun _ => [9, 9, 9])) ["a"]) "z",
      a < 2 * 8 ∧ a / 8 < (feedAll (New 2 3 (fun _ => [9, 9, 9])) ["a"]).arr.length :=
  c10_accesses_in_bounds 2 3 (fun _ => [9, 9, 9]) (by decide) (by decide) (by decide) ["a"] "z"

/-! ### Reset and fill ratio: C9 -/

theorem popcount_zero : popcount 0 = 0 := rfl

theorem popcntSliceGo_foldl_zero (n : Nat) (c : Nat) :
    (List.replicate n 0).foldl (fun cnt x => cnt + popcount x) c = c := by
  induction n generalizing c with
  | zero => rfl
  | succ m ih =>
    rw [List.replicate_succ, List.foldl_cons, popcount_zero]
    exact ih (c + 0)

theorem popcntSliceGo_replicate_zero (n : Nat) : popcntSliceGo (List.replicate n 0) = 0 :=
  popcntSliceGo_foldl_zero n 0

/-- C9: `Reset` replaces the bit buffer with a freshly zeroed buffer of
`Size` bytes — so `FillRatio` is `0` immediately afterwards — while the
`inserted` counter, `Size` and `k` are all left unchanged. -/
theorem c9_reset (bf : Filter) :
    (Reset bf).arr = List.replicate bf.size 0 ∧
    (Reset bf).arr.length = bf.size ∧
    fillRatioQ (Reset bf) = 0 ∧
    (Reset bf).inserted = bf.inserted ∧
    (Reset bf).size = bf.size ∧
    (Reset bf).k = bf.k ∧
    (Reset bf).hasher = bf.hasher := by
  refine ⟨rfl, by simp [Reset], ?_, rfl, rfl, rfl, rfl⟩
  unfold fillRatioQ
  show ((popcntSliceGo (List.replicate bf.size 0) : ℚ)) / _ = 0
  rw [popcntSliceGo_replicate_zero]
  simp

/-! ### Merge: C4 -/

theorem getD_set (l : List Nat) (i j v : Nat) :
    (l.set i v).getD j 0 = if i = j ∧ i < l.length then v else l.getD j 0 := by
  rw [List.getD_eq_getElem?_getD, List.getElem?_set, List.getD_eq_getElem?_getD]
  by_cases h : i = j
  · subst h
    by_cases hl : i < l.length
    · simp [hl]
    · have hnone : l[i]? = none := List.getElem?_eq_none_iff.mpr (by omega)
      simp [hl, hnone]
  · simp [h]

theorem foldl_or_getD (oarr : List Nat) (m : Nat) (arr : List Nat) (hm : m ≤ arr.length) :
    ((List.range m).foldl (fun a i => a.set i (a.getD i 0 ||| oarr.getD i 0)) arr).length
        = arr.length ∧
    ∀ j, ((List.range m).foldl (fun a i => a.set i (a.getD i 0 ||| oarr.getD i 0)) arr).getD j 0
        = if j < m then arr.getD j 0 ||| oarr.getD j 0 else arr.getD j 0 := by
  induction m with
  | zero => exact ⟨rfl, fun j => by simp⟩
  | succ m ih =>
    obtain ⟨ihlen, ihget⟩ := ih (by omega)
    rw [List.range_succ, List.foldl_append, List.foldl_cons, List.foldl_nil]
    have hres_m : (List.foldl (fun a i => a.set i (a.getD i 0 ||| oarr.getD i 0)) arr
        (List.range m)).getD m 0 = arr.getD m 0 := by
      rw [ihget m, if_neg (lt_irrefl m)]
    refine ⟨by rw [List.length_set, ihlen], fun j => ?_⟩
    rw [getD_set, ihlen, hres_m]
    by_cases hj : m = j
    · subst hj
      rw [if_pos ⟨rfl, by omega⟩, if_pos (by omega)]
    · rw [if_neg (fun hc => hj hc.1), ihget j]
      by_cases hjm : j < m
      · rw [if_pos hjm, if_pos (by omega)]
      · rw [if_neg hjm, if_neg (by omega)]

/-- C4: `Merge(other)` fails exactly when `Size` or `k` differ (returning the
corresponding Go error), leaving the receiver untouched on failure (`other`
is never written at all); on success it returns no error and bitwise-ORs
`other`'s bit array into the receiver, every other field unchanged, so every
bit set in either input is set in the result (the receiver becomes a
superset). -/
theorem c4_merge (bf oth : Filter) (hbf : bf.arr.length = bf.size)
    (hoth : oth.arr.length = oth.size) :
    ((Merge bf oth).2.isSome ↔ (bf.size ≠ oth.size ∨ bf.k ≠ oth.k)) ∧
    ((Merge bf oth).2.isSome → (Merge bf oth).1 = bf) ∧
    (bf.size = oth.size → bf.k = oth.k →
      (Merge bf oth).2 = none ∧
      (Merge bf oth).1.size = bf.size ∧ (Merge bf oth).1.k = bf.k ∧
      (Merge bf oth).1.inserted = bf.inserted ∧ (Merge bf oth).1.hasher = bf.hasher ∧
      (Merge bf oth).1.arr.length = bf.arr.length ∧
      (∀ n, isSet (Merge bf oth).1 n = (isSet bf n || isSet oth n))) := by
  by_cases h1 : bf.size = oth.size
  · by_cases h2 : bf.k = oth.k
    · have hMerge : Merge bf oth =
          (Filter.mk ((List.range bf.size).foldl
              (fun a i => a.set i (a.getD i 0 ||| oth.arr.getD i 0)) bf.arr)
            bf.size bf.k bf.inserted bf.hasher, none) := by
        simp [Merge, h1, h2]
      obtain ⟨klen, kget⟩ :=
        foldl_or_getD oth.arr bf.size bf.arr (by omega)
      refine ⟨by simp [hMerge, h1, h2], by simp [hMerge], fun _ _ => ?_⟩
      refine ⟨by simp [hMerge], by simp [hMerge], by simp [hMerge], by simp [hMerge],
        by simp [hMerge], by rw [hMerge]; exact klen, fun n => ?_⟩
      rw [hMerge]
      simp only [isSet_eq_testBit]
      rw [kget (n / 8)]
      by_cases hj : n / 8 < bf.size
      · rw [if_pos hj, Nat.testBit_or]
      · rw [if_neg hj]
        have hz1 : bf.arr.getD (n / 8) 0 = 0 :=
          List.getD_eq_default _ _ (by omega)
        have hz2 : oth.arr.getD (n / 8) 0 = 0 :=
          List.getD_eq_default _ _ (by omega)
        rw [hz1, hz2]
        simp [Nat.zero_testBit]
    · have hMerge : Merge bf oth =
          (bf, some "hashes functions must be the same to perform merge") := by
        simp [Merge, h1, h2]
      exact ⟨by simp [hMerge, h2], by simp [hMerge], fun _ hk => absurd hk h2⟩
  · have hMerge : Merge bf oth = (bf, some "incompatible filters size for merge") := by
      simp [Merge, h1]
    exact ⟨by simp [hMerge, h1], by simp [hMerge], fun hs => absurd hs h1⟩

/-- Closed witness for `c4_merge` at two concrete compatible filters. -/
theorem c4_merge_witness :
    ((Merge ⟨[1], 1, 1, 0, fun _ => [0]⟩ ⟨[2], 1, 1, 0, fun _ => [0]⟩).2.isSome ↔
      ((1 : Nat) ≠ 1 ∨ (1 : Nat) ≠ 1)) ∧
    ((Merge ⟨[1], 1, 1, 0, fun _ => [0]⟩ ⟨[2], 1, 1, 0, fun _ => [0]⟩).2.isSome →
      (Merge ⟨[1], 1, 1, 0, fun _ => [0]⟩ ⟨[2], 1, 1, 0, fun _ => [0]⟩).1 =
        ⟨[1], 1, 1, 0, fun _ => [0]⟩) ∧
    ((1 : Nat) = 1 → (1 : Nat) = 1 →
      (Merge ⟨[1], 1, 1, 0, fun _ => [0]⟩ ⟨[2], 1, 1, 0, fun _ => [0]⟩).2 = none ∧
      (Merge ⟨[1], 1, 1, 0, fun _ => [0]⟩ ⟨[2], 1, 1, 0, fun _ => [0]⟩).1.size = 1 ∧
      (Merge ⟨[1], 1, 1, 0, fun _ => [0]⟩ ⟨[2], 1, 1, 0, fun _ => [0]⟩).1.k = 1 ∧
      (Merge ⟨[1], 1, 1, 0, fun _ => [0]⟩ ⟨[2], 1, 1, 0, fun _ => [0]⟩).1.inserted = 0 ∧
      (Merge ⟨[1], 1, 1, 0, fun _ => [0]⟩ ⟨[2], 1, 1, 0, fun _ => [0]⟩).1.hasher =
        (⟨[1], 1, 1, 0, fun _ => [0]⟩ : Filter).hasher ∧
      (Merge ⟨[1], 1, 1, 0, fun _ => [0]⟩ ⟨[2], 1, 1, 0, fun _ => [0]⟩).1.arr.length = 1 ∧
      (∀ n, isSet (Merge ⟨[1], 1, 1, 0, fun _ => [0]⟩ ⟨[2], 1, 1, 0, fun _ => [0]⟩).1 n =
        (isSet ⟨[1], 1, 1, 0, fun _ => [0]⟩ n || isSet ⟨[2], 1, 1, 0, fun _ => [0]⟩ n))) :=
  c4_merge ⟨[1], 1, 1, 0, fun _ => [0]⟩ ⟨[2], 1, 1, 0, fun _ => [0]⟩ (by decide) (by decide)

/-! ### `hashCountForFP` (`utils.go`) and the scalable filter (`scalable.go`) -/

/-- Fuel-indexed ceiling of `log2` (the fuel `x` always suffices since the
argument at least halves each step). -/
def ceilLog2Go (fuel x : Nat) : Nat :=
  match fuel with
  | 0 => 0
  | fuel + 1 => if x ≤ 1 then 0 else ceilLog2Go fuel ((x + 1) / 2) + 1

/-- Least `n` with `x ≤ 2^n`, i.e. `ceil(log2 x)` for `x ≥ 1`
(see `ceilLog2_spec`). -/
def ceilLog2 (x : Nat) : Nat := ceilLog2Go x x

theorem ceilLog2Go_spec (fuel : Nat) : ∀ x : Nat, x ≤ fuel →
    x ≤ 2 ^ ceilLog2Go fuel x ∧ ∀ m, x ≤ 2 ^ m → ceilLog2Go fuel x ≤ m := by
  induction fuel with
  | zero =>
    intro x hx
    have hx0 : x = 0 := by omega
    subst hx0
    exact ⟨Nat.zero_le _, fun m _ => Nat.zero_le _⟩
  | succ fuel ih =>
    intro x hx
    by_cases h1 : x ≤ 1
    · have h0 : ceilLog2Go (fuel + 1) x = 0 := by simp [ceilLog2Go, h1]
      rw [h0]
      exact ⟨by simpa using h1, fun m _ => Nat.zero_le m⟩
    · obtain ⟨hrec1, hrec2⟩ := ih ((x + 1) / 2) (by omega)
      have hunf : ceilLog2Go (fuel + 1) x = ceilLog2Go fuel ((x + 1) / 2) + 1 := by
        simp [ceilLog2Go, h1]
      rw [hunf]
      constructor
      · rw [pow_succ]
        omega
      · intro m hm
        match m with
        | 0 => omega
        | m + 1 =>
          rw [pow_succ] at hm
          have : (x + 1) / 2 ≤ 2 ^ m := by omega
          exact Nat.succ_le_succ (hrec2 m this)

theorem ceilLog2_spec (x : Nat) :
    x ≤ 2 ^ ceilLog2 x ∧ ∀ m, x ≤ 2 ^ m → ceilLog2 x ≤ m :=
  ceilLog2Go_spec x x (le_refl x)

/-- Source `hashCountForFP` from `utils.go`: `uint64(math.Ceil(math.Log2(1.0/fp)))`,
modelled with exact rational arithmetic: for `0 < fp` this is the least `n`
with `1/fp ≤ 2^n` (see `hashCountForFP_spec`), which is `ceil(log2(1/fp))`;
the `float64` rounding of `math.Log2` is abstracted away. -/
def hashCountForFP (fp : ℚ) : Nat := ceilLog2 ⌈1 / fp⌉₊

theorem hashCountForFP_spec (fp : ℚ) (hfp : 0 < fp) :
    1 / fp ≤ 2 ^ hashCountForFP fp ∧ ∀ m, 1 / fp ≤ 2 ^ m → hashCountForFP fp ≤ m := by
  obtain ⟨h1, h2⟩ := ceilLog2_spec ⌈1 / fp⌉₊
  constructor
  · calc (1 / fp : ℚ) ≤ (⌈1 / fp⌉₊ : ℚ) := Nat.le_ceil _
      _ ≤ ((2 ^ ceilLog2 ⌈1 / fp⌉₊ : ℕ) : ℚ) := by exact_mod_cast h1
      _ = 2 ^ hashCountForFP fp := by push_cast; rfl
  · intro m hm
    refine h2 m (Nat.ceil_le.mpr ?_)
    calc (1 / fp : ℚ) ≤ 2 ^ m := hm
      _ = ((2 ^ m : ℕ) : ℚ) := by push_cast; rfl

/-- Source `ScalableFilter` struct: growth rate `s`, false-positive target `p`,
initial size `m0`, tightening ratio `r`, chain of sub-filters newest
first.  The `float64` fields are modelled exactly in `ℚ`. -/
structure ScalableFilter where
  s : ℚ
  p : ℚ
  m0 : Nat
  r : ℚ
  filters : List Filter

/-- Source `NewScalable(p, s, m0, r)`: one initial sub-filter
`New(m0, hashCountForFP(p))`.  As with `New`, the generated hash capability
for a `(size, k)` pair is a parameter `gen`. -/
def NewScalable (p s : ℚ) (m0 : Nat) (r : ℚ) (gen : Nat → Nat → String → List Nat) :
    ScalableFilter :=
  ⟨s, p, m0, r, [New m0 (hashCountForFP p) (gen m0 (hashCountForFP p))]⟩

/-- Source `ScalableFilter.Match`: the source loop runs `hid` from
`len(filters)-1` down to `0`, returning true on the first sub-filter whose
`Match` is true — i.e. an OR over the chain, oldest index probed first. -/
def scalableMatch (sbf : ScalableFilter) (str : String) : Bool :=
  sbf.filters.reverse.any (fun f => Match f str)

/-- Source `ScalableFilter.Feed`: if the active sub-filter (index 0) has
`EstimateFillRatio() > 0.3`, tighten `p *= r` and prepend
`New(uint64(float64(prev.Size)*s), hashCountForFP(p))`; then feed index 0.
The threshold literal `0.3` and the `float64` arithmetic are modelled
exactly in `ℚ`; `uint64(·)` on the nonnegative product is `Nat.floor`.
The chain is never empty (Go would panic on `filters[0]` otherwise; the
impossible `[]` case feeds nothing). -/
def scalableFeed (gen : Nat → Nat → String → List Nat) (sbf : ScalableFilter)
    (str : String) : ScalableFilter :=
  let grown :=
    if 3 / 10 < estimateFillRatioQ (sbf.filters.headD default) then
      let p2 := sbf.p * sbf.r
      let newSize := ⌊((sbf.filters.headD default).size : ℚ) * sbf.s⌋₊
      { sbf with p := p2,
                 filters := New newSize (hashCountForFP p2)
                   (gen newSize (hashCountForFP p2)) :: sbf.filters }
    else sbf
  match grown.filters with
  | [] => grown
  | f :: rest => { grown with filters := Feed f str :: rest }

/-- C8: `ScalableFilter.Match` is a union query: it returns true exactly
when some sub-filter in the chain matches, and false exactly when no
sub-filter matches (the probing order — the source walks the chain from the
oldest index to index 0 — does not affect the result). -/
theorem c8_scalable_match_union (sbf : ScalableFilter) (str : String) :
    (scalableMatch sbf str = true ↔ ∃ f ∈ sbf.filters, Match f str = true) ∧
    (scalableMatch sbf str = false ↔ ∀ f ∈ sbf.filters, Match f str = false) := by
  constructor
  · simp [scalableMatch, List.any_eq_true, List.mem_reverse]
  · simp [scalableMatch, List.any_eq_false, List.mem_reverse]

/-- C3: a growth step happens in `ScalableFilter.Feed` exactly when the
active sub-filter's estimated fill ratio exceeds `0.3`; on that transition
`p` is multiplied by `r`, the new sub-filter has byte size
`floor(prev.Size * s)` and hash count `hashCountForFP` of the tightened
target, it is prepended at index 0, and the pending feed goes into it;
otherwise the feed goes into the existing head and `p` is unchanged; the
number of sub-filters never decreases. -/
theorem c3_scalable_growth (gen : Nat → Nat → String → List Nat)
    (sbf : ScalableFilter) (str : String) (hne : sbf.filters ≠ []) :
    sbf.filters.length ≤ (scalableFeed gen sbf str).filters.length ∧
    (¬ 3 / 10 < estimateFillRatioQ (sbf.filters.headD default) →
      (scalableFeed gen sbf str).filters.length = sbf.filters.length ∧
      (scalableFeed gen sbf str).p = sbf.p ∧
      (scalableFeed gen sbf str).filters =
        Feed (sbf.filters.headD default) str :: sbf.filters.tail) ∧
    (3 / 10 < estimateFillRatioQ (sbf.filters.headD default) →
      (scalableFeed gen sbf str).filters.length = sbf.filters.length + 1 ∧
      (scalableFeed gen sbf str).p = sbf.p * sbf.r ∧
      (scalableFeed gen sbf str).filters =
        Feed (New ⌊((sbf.filters.headD default).size : ℚ) * sbf.s⌋₊
          (hashCountForFP (sbf.p * sbf.r))
          (gen ⌊((sbf.filters.headD default).size : ℚ) * sbf.s⌋₊
            (hashCountForFP (sbf.p * sbf.r)))) str :: sbf.filters ∧
      ((scalableFeed gen sbf str).filters.headD default).size =
        ⌊((sbf.filters.headD default).size : ℚ) * sbf.s⌋₊ ∧
      ((scalableFeed gen sbf str).filters.headD default).k =
        hashCountForFP (sbf.p * sbf.r)) := by
  obtain ⟨f0, rest, hf⟩ := List.exists_cons_of_ne_nil hne
  by_cases hgrow : 3 / 10 < estimateFillRatioQ (sbf.filters.headD default)
  · have hfeed : scalableFeed gen sbf str =
        { sbf with p := sbf.p * sbf.r,
                   filters := Feed (New ⌊((sbf.filters.headD default).size : ℚ) * sbf.s⌋₊
                     (hashCountForFP (sbf.p * sbf.r))
                     (gen ⌊((sbf.filters.headD default).size : ℚ) * sbf.s⌋₊
                       (hashCountForFP (sbf.p * sbf.r)))) str :: sbf.filters } := by
      unfold scalableFeed
      rw [if_pos hgrow]
    refine ⟨?_, fun hno => absurd hgrow hno, fun _ => ?_⟩
    · rw [hfeed]
      simp
    · rw [hfeed]
      refine ⟨by simp, rfl, rfl, by simp [New], by simp [New]⟩
  · have hfeed : scalableFeed gen sbf str =
        { sbf with filters := Feed f0 str :: rest } := by
      unfold scalableFeed
      rw [if_neg hgrow]
      simp only [hf]
    have hhead : sbf.filters.headD default = f0 := by rw [hf]; rfl
    refine ⟨?_, fun _ => ?_, fun hyes => absurd hyes hgrow⟩
    · rw [hfeed, hf]
      simp
    · rw [hfeed, hf]
      simp

/-- Closed witness for `c3_scalable_growth` on a freshly built scalable
filter (fill estimate `0`, so the non-growth branch applies). -/
theorem c3_scalable_growth_witness :
    (NewScalable (1/2) 2 4 (4/5) (fun _ _ _ => [0])).filters.length ≤
      (scalableFeed (fun _ _ _ => [0]) (NewScalable (1/2) 2 4 (4/5) (fun _ _ _ => [0]))
        "w").filters.length ∧
    (¬ 3 / 10 < estimateFillRatioQ
        ((NewScalable (1/2) 2 4 (4/5) (fun _ _ _ => [0])).filters.headD default) →
      (scalableFeed (fun _ _ _ => [0]) (NewScalable (1/2) 2 4 (4/5) (fun _ _ _ => [0]))
          "w").filters.length =
        (NewScalable (1/2) 2 4 (4/5) (fun _ _ _ => [0])).filters.length ∧
      (scalableFeed (fun _ _ _ => [0]) (NewScalable (1/2) 2 4 (4/5) (fun _ _ _ => [0]))
          "w").p = (NewScalable (1/2) 2 4 (4/5) (fun _ _ _ => [0])).p ∧
      (scalableFeed (fun _ _ _ => [0]) (NewScalable (1/2) 2 4 (4/5) (fun _ _ _ => [0]))
          "w").filters =
        Feed ((NewScalable (1/2) 2 4 (4/5) (fun _ _ _ => [0])).filters.headD default) "w" ::
          (NewScalable (1/2) 2 4 (4/5) (fun _ _ _ => [0])).filters.tail) ∧
    (3 / 10 < estimateFillRatioQ
        ((NewScalable (1/2) 2 4 (4/5) (fun _ _ _ => [0])).filters.headD default) →
      (scalableFeed (fun _ _ _ => [0]) (NewScalable (1/2) 2 4 (4/5) (fun _ _ _ => [0]))
          "w").filters.length =
        (NewScalable (1/2) 2 4 (4/5) (fun _ _ _ => [0])).filters.length + 1 ∧
      (scalableFeed (fun _ _ _ => [0]) (NewScalable (1/2) 2 4 (4/5) (fun _ _ _ => [0]))
          "w").p =
        (NewScalable (1/2) 2 4 (4/5) (fun _ _ _ => [0])).p *
          (NewScalable (1/2) 2 4 (4/5) (fun _ _ _ => [0])).r ∧
      (scalableFeed (fun _ _ _ => [0]) (NewScalable (1/2) 2 4 (4/5) (fun _ _ _ => [0]))
          "w").filters =
        Feed (New
          ⌊(((NewScalable (1/2) 2 4 (4/5) (fun _ _ _ => [0])).filters.headD default).size : ℚ) *
            (NewScalable (1/2) 2 4 (4/5) (fun _ _ _ => [0])).s⌋₊
          (hashCountForFP ((NewScalable (1/2) 2 4 (4/5) (fun _ _ _ => [0])).p *
            (NewScalable (1/2) 2 4 (4/5) (fun _ _ _ => [0])).r))
          ((fun _ _ _ => [0])
            ⌊(((NewScalable (1/2) 2 4 (4/5) (fun _ _ _ => [0])).filters.headD default).size : ℚ) *
              (NewScalable (1/2) 2 4 (4/5) (fun _ _ _ => [0])).s⌋₊
            (hashCountForFP ((NewScalable (1/2) 2 4 (4/5) (fun _ _ _ => [0])).p *
              (NewScalable (1/2) 2 4 (4/5) (fun _ _ _ => [0])).r)))) "w" ::
          (NewScalable (1/2) 2 4 (4/5) (fun _ _ _ => [0])).filters ∧
      ((scalableFeed (fun _ _ _ => [0]) (NewScalable (1/2) 2 4 (4/5) (fun _ _ _ => [0]))
          "w").filters.headD default).size =
        ⌊(((NewScalable (1/2) 2 4 (4/5) (fun _ _ _ => [0])).filters.headD default).size : ℚ) *
          (NewScalable (1/2) 2 4 (4/5) (fun _ _ _ => [0])).s⌋₊ ∧
      ((scalableFeed (fun _ _ _ => [0]) (NewScalable (1/2) 2 4 (4/5) (fun _ _ _ => [0]))
          "w").filters.headD default).k =
        hashCountForFP ((NewScalable (1/2) 2 4 (4/5) (fun _ _ _ => [0])).p *
          (NewScalable (1/2) 2 4 (4/5) (fun _ _ _ => [0])).r)) :=
  c3_scalable_growth (fun _ _ _ => [0]) (NewScalable (1/2) 2 4 (4/5) (fun _ _ _ => [0]))
    "w" (by simp [NewScalable])

/-! ### Hash partitioning (`utils.go`): `makeHashes`, `hashingRoutine` (C2) -/

/-- Source `binary.BigEndian.Uint64` applied to a chunk left-padded with zero bytes
to 8 bytes: the big-endian value of the chunk. -/
def beUint64 (raw : List Nat) : Nat := raw.foldl (fun a b => a * 256 + b) 0

/-- Source `makeHashes` from `utils.go`: slices `digest` into `k` chunks of `size`
bytes and reads each as a big-endian integer; **panics** (`GoResult.panicked`)
when `len(digest) < size*k || size > 8`.  The source comment annotates this:
`Bug(makeHashes) Panic if required hashes total size is bigger than a
sha512`. -/
def makeHashes (digest : List Nat) (size k : Nat) : GoResult (List Nat) :=
  if digest.length < size * k ∨ 8 < size then
    GoResult.panicked "Digest is too small to address all the filter"
  else
    GoResult.ok ((List.range k).map (fun i => beUint64 ((digest.drop (i * size)).take size)))

/-- Digest width in bytes chosen by the `switch` in `hashingRoutine`
(`utils.go`): sha512 / sha384 / sha256 / sha1 / md5 by required width. -/
def digestLengthFor (hashSize : Nat) : Nat :=
  if 48 < hashSize then 64
  else if 32 < hashSize then 48
  else if 20 < hashSize then 32
  else if 16 < hashSize then 20
  else 16

/-- Source `hashingRoutine(size, k)` from `utils.go`, the returned closure: pick
the digest of width `digestLengthFor (size*k)` and run `makeHashes`.  The
crypto digests themselves are external; `digest w inp` stands for the
`w`-byte digest of `inp` (see the length hypothesis in the theorems). -/
def hashingRoutine (size k : Nat) (digest : Nat → List Nat → List Nat)
    (inp : List Nat) : GoResult (List Nat) :=
  makeHashes (digest (digestLengthFor (size * k)) inp) size k

/-- On the non-panicking path `makeHashes` returns exactly `k` words — this
backs the `getD`-based indexing used in `addresses`. -/
theorem makeHashes_length (digest : List Nat) (size k : Nat)
    (h1 : size * k ≤ digest.length) (h2 : size ≤ 8) :
    makeHashes digest size k =
      GoResult.ok ((List.range k).map (fun i => beUint64 ((digest.drop (i * size)).take size))) ∧
    ((List.range k).map (fun i => beUint64 ((digest.drop (i * size)).take size))).length = k := by
  constructor
  · unfold makeHashes
    rw [if_neg (by omega)]
  · simp

/-- Closed witness for `makeHashes_length`. -/
theorem makeHashes_length_witness :
    makeHashes [7, 7] 1 2 =
      GoResult.ok ((List.range 2).map (fun i => beUint64 (([7, 7].drop (i * 1)).take 1))) ∧
    ((List.range 2).map (fun i => beUint64 (([7, 7].drop (i * 1)).take 1))).length = 2 :=
  makeHashes_length [7, 7] 1 2 (by decide) (by decide)

/-- C2 (code bug): with hash-partitioning parameters over capacity
(`digitsPerHash * k = 2 * 33 = 66 > 64`), the hashing strategy does not
return an error — it panics, terminating the process, for every input and
every digest family of the correct widths.  This matches the source's own
`Bug(makeHashes)` remark. -/
theorem c2_capacity_panic (digest : Nat → List Nat → List Nat)
    (hd : ∀ w inp, (digest w inp).length = w) (inp : List Nat) :
    hashingRoutine 2 33 digest inp =
      GoResult.panicked "Digest is too small to address all the filter" := by
  unfold hashingRoutine makeHashes
  rw [if_pos]
  left
  rw [hd]
  norm_num [digestLengthFor]

/-- Closed witness for `c2_capacity_panic` with an all-zero digest family. -/
theorem c2_capacity_panic_witness :
    hashingRoutine 2 33 (fun w _ => List.replicate w 0) [1, 2, 3] =
      GoResult.panicked "Digest is too small to address all the filter" :=
  c2_capacity_panic (fun w _ => List.replicate w 0) (fun w inp => by simp) [1, 2, 3]

/-! ### Base64 (external collaborator `encoding/base64`, standard alphabet)

`encoding/json` marshals a `[]byte` field as a standard-base64 string and
`base64.StdEncoding.DecodeString` inverts it; both are Go standard library,
modelled here concretely so the round trip is proved, not assumed. -/

def b64chars : List Char :=
  "ABCDEFGHIJKLMNOPQRSTUVWXYZabcdefghijklmnopqrstuvwxyz0123456789+/".toList

def sextetChar (n : Nat) : Char := b64chars.getD n 'A'

def charSextet (c : Char) : Option Nat := List.indexOf? c b64chars

/-- Standard base64 of a byte sequence (3 bytes → 4 chars, `=`-padded). -/
def encodeB64 : List Nat → List Char
  | [] => []
  | [a] => [sextetChar (a / 4), sextetChar (a % 4 * 16), '=', '=']
  | [a, b] => [sextetChar (a / 4), sextetChar (a % 4 * 16 + b / 16), sextetChar (b % 16 * 4), '=']
  | a :: b :: c :: rest =>
    sextetChar (a / 4) :: sextetChar (a % 4 * 16 + b / 16) ::
      sextetChar (b % 16 * 4 + c / 64) :: sextetChar (c % 64) :: encodeB64 rest

/-- Standard base64 decoding; `none` models the `CorruptInputError` return
of `base64.StdEncoding.DecodeString`. -/
def decodeB64 : List Char → Option (List Nat)
  | [] => some []
  | c1 :: c2 :: c3 :: c4 :: rest =>
    match charSextet c1, charSextet c2 with
    | some s1, some s2 =>
      if c3 = '=' then
        if c4 = '=' ∧ rest = [] then some [s1 * 4 + s2 / 16] else none
      else
        match charSextet c3 with
        | some s3 =>
          if c4 = '=' then
            if rest = [] then some [s1 * 4 + s2 / 16, s2 % 16 * 16 + s3 / 4] else none
          else
            match charSextet c4 with
            | some s4 =>
              match decodeB64 rest with
              | some tail =>
                some ((s1 * 4 + s2 / 16) :: (s2 % 16 * 16 + s3 / 4) :: (s3 % 4 * 64 + s4) :: tail)
              | none => none
            | none => none
        | none => none
    | _, _ => none
  | _ => none

theorem charSextet_sextetChar : ∀ n < 64, charSextet (sextetChar n) = some n := by decide

theorem sextetChar_ne_pad : ∀ n < 64, sextetChar n ≠ '=' := by decide

theorem decodeB64_encodeB64 : ∀ (l : List Nat), (∀ b ∈ l, b < 256) →
    decodeB64 (encodeB64 l) = some l
  | [], _ => rfl
  | [a], h => by
    have ha : a < 256 := h a (by simp)
    have h1 : a / 4 < 64 := by omega
    have h2 : a % 4 * 16 < 64 := by omega
    show decodeB64 [sextetChar (a / 4), sextetChar (a % 4 * 16), '=', '='] = some [a]
    unfold decodeB64
    rw [charSextet_sextetChar _ h1, charSextet_sextetChar _ h2]
    simp
    omega
  | [a, b], h => by
    have ha : a < 256 := h a (by simp)
    have hb : b < 256 := h b (by simp)
    have h1 : a / 4 < 64 := by omega
    have h2 : a % 4 * 16 + b / 16 < 64 := by omega
    have h3 : b % 16 * 4 < 64 := by omega
    show decodeB64 [sextetChar (a / 4), sextetChar (a % 4 * 16 + b / 16),
      sextetChar (b % 16 * 4), '='] = some [a, b]
    unfold decodeB64
    rw [charSextet_sextetChar _ h1, charSextet_sextetChar _ h2]
    have hne3 := sextetChar_ne_pad _ h3
    simp [hne3, charSextet_sextetChar _ h3]
    omega
  | a :: b :: c :: rest, h => by
    have ha : a < 256 := h a (by simp)
    have hb : b < 256 := h b (by simp)
    have hc : c < 256 := h c (by simp)
    have h1 : a / 4 < 64 := by omega
    have h2 : a % 4 * 16 + b / 16 < 64 := by omega
    have h3 : b % 16 * 4 + c / 64 < 64 := by omega
    have h4 : c % 64 < 64 := by omega
    have ih := decodeB64_encodeB64 rest (fun x hx => h x (by simp [hx]))
    show decodeB64 (sextetChar (a / 4) :: sextetChar (a % 4 * 16 + b / 16) ::
      sextetChar (b % 16 * 4 + c / 64) :: sextetChar (c % 64) :: encodeB64 rest) =
      some (a :: b :: c :: rest)
    unfold decodeB64
    rw [charSextet_sextetChar _ h1, charSextet_sextetChar _ h2]
    have hne3 := sextetChar_ne_pad _ h3
    have hne4 := sextetChar_ne_pad _ h4
    simp [hne3, hne4, charSextet_sextetChar _ h3, charSextet_sextetChar _ h4, ih]
    omega

/-! ### JSON serialization boundary (`bloom.go`): `ToJSON` / `FromJSON` -/

/-- Parsed JSON values, as produced by `encoding/json.Unmarshal` into
`map[string]interface{}`: numbers become `float64` (exact rationals here),
strings stay strings. -/
inductive JVal where
  | jnum (q : ℚ)
  | jstr (s : String)
  | jbool (b : Bool)
  | jnull
  | jarr (elems : List JVal)
  | jobj (fields : List (String × JVal))

/-- Source `EncodedFilter` struct from `bloom.go`. -/
structure EncodedFilter where
  Arr : List Nat
  Size : Nat
  K : Nat
  Inserted : Nat

/-- The `EncodedFilter` value built by `ToJSON`. -/
def ToJSONEnc (bf : Filter) : EncodedFilter := ⟨bf.arr, bf.size, bf.k, bf.inserted⟩

/-- What `json.Marshal` emits for an `EncodedFilter` (as re-parsed): the
`[]byte` field as a standard-base64 string, the `uint64` fields as
numbers. -/
def marshalEncodedFilter (enc : EncodedFilter) : JVal :=
  JVal.jobj [("Arr", JVal.jstr (String.mk (encodeB64 enc.Arr))),
             ("Size", JVal.jnum enc.Size),
             ("K", JVal.jnum enc.K),
             ("Inserted", JVal.jnum enc.Inserted)]

/-- Source `ToJSON` from `bloom.go`, composed with the external JSON encoding (its
`json.Marshal` call cannot fail on this struct). -/
def ToJSON (bf : Filter) : JVal := marshalEncodedFilter (ToJSONEnc bf)

def GoResult.bind : GoResult α → (α → GoResult β) → GoResult β
  | GoResult.ok a, f => f a
  | GoResult.err m, _ => GoResult.err m
  | GoResult.panicked m, _ => GoResult.panicked m

/-- A Go type assertion `v.(float64)` on a map lookup: panics when the key
is absent (`nil` interface) or holds a non-number. -/
def asNum : Option JVal → GoResult ℚ
  | some (JVal.jnum q) => GoResult.ok q
  | _ => GoResult.panicked "interface conversion"

/-- A Go type assertion `v.(string)` on a map lookup. -/
def asStr : Option JVal → GoResult String
  | some (JVal.jstr s) => GoResult.ok s
  | _ => GoResult.panicked "interface conversion"

/-- Source `FromJSON` from `bloom.go`, on the parsed JSON value: asserts
`Size`/`K`/`Inserted` as numbers and `Arr` as a string (each assertion
panics on a wrong type or missing key), base64-decodes `Arr` (returning the
decode error), builds `New` and then overwrites `inserted` and `arr`; note
there is no check that the decoded buffer length matches `Size`.  A
non-object input is the `json.Unmarshal` error return.  `uint64(f)` on the
nonnegative decoded numbers is `Nat.floor`. -/
def FromJSON (gen : Nat → Nat → String → List Nat) (v : JVal) : GoResult Filter :=
  match v with
  | JVal.jobj fields =>
    GoResult.bind (asNum (fields.lookup "Size")) (fun qsize =>
    GoResult.bind (asNum (fields.lookup "K")) (fun qk =>
    GoResult.bind (asNum (fields.lookup "Inserted")) (fun qins =>
    GoResult.bind (asStr (fields.lookup "Arr")) (fun astr =>
      match decodeB64 astr.toList with
      | some bytes =>
          GoResult.ok (Filter.mk bytes ⌊qsize⌋₊ ⌊qk⌋₊ ⌊qins⌋₊ (gen ⌊qsize⌋₊ ⌊qk⌋₊))
      | none => GoResult.err "illegal base64 data"))))
  | _ => GoResult.err "json: cannot unmarshal value into Go map"

/-- A concrete hash-capability generator used by closed witnesses. -/
def gen0 : Nat → Nat → String → List Nat := fun _ _ _ => [0]

/-- C5: exporting a Filter with `ToJSON` and reconstructing it with
`FromJSON` succeeds and returns a filter that is equal to the original —
in particular its bit buffer is byte-for-byte identical, `inserted` is
preserved, and `Match` agrees on every input.  The hypotheses say the
filter's bytes are genuine bytes (`< 256`, true of every filter the package
builds) and its hasher is the generated one for its `(size, k)` (true of
every filter built by `New`). -/
theorem c5_roundtrip (gen : Nat → Nat → String → List Nat) (bf : Filter)
    (hhash : bf.hasher = gen bf.size bf.k) (hbytes : ∀ b ∈ bf.arr, b < 256) :
    FromJSON gen (ToJSON bf) = GoResult.ok bf ∧
    ∀ rec, FromJSON gen (ToJSON bf) = GoResult.ok rec →
      rec.arr = bf.arr ∧ rec.inserted = bf.inserted ∧
      ∀ str, Match rec str = Match bf str := by
  have hlist : (String.mk (encodeB64 bf.arr)).toList = encodeB64 bf.arr := rfl
  have hmain : FromJSON gen (ToJSON bf) = GoResult.ok bf := by
    unfold ToJSON marshalEncodedFilter ToJSONEnc FromJSON
    simp [List.lookup, asNum, asStr, GoResult.bind, hlist,
      decodeB64_encodeB64 bf.arr hbytes, Nat.floor_natCast, ← hhash]
  refine ⟨hmain, fun rec hrec => ?_⟩
  rw [hmain] at hrec
  cases hrec
  exact ⟨rfl, rfl, fun _ => rfl⟩

/-- Closed witness for `c5_roundtrip` on a freshly built 2-byte filter. -/
theorem c5_roundtrip_witness :
    FromJSON gen0 (ToJSON (New 2 1 (gen0 2 1))) = GoResult.ok (New 2 1 (gen0 2 1)) ∧
    ∀ rec, FromJSON gen0 (ToJSON (New 2 1 (gen0 2 1))) = GoResult.ok rec →
      rec.arr = (New 2 1 (gen0 2 1)).arr ∧ rec.inserted = (New 2 1 (gen0 2 1)).inserted ∧
      ∀ str, Match rec str = Match (New 2 1 (gen0 2 1)) str :=
  c5_roundtrip gen0 (New 2 1 (gen0 2 1)) rfl (by decide)

/-! ### C6: behaviour of `FromJSON` on malformed input -/

def isOkResult : GoResult Filter → Bool
  | GoResult.ok _ => true
  | _ => false

def isPanicResult : GoResult Filter → Bool
  | GoResult.panicked _ => true
  | _ => false

def okSize : GoResult Filter → Option Nat
  | GoResult.ok f => some f.size
  | _ => none

def okArrLen : GoResult Filter → Option Nat
  | GoResult.ok f => some f.arr.length
  | _ => none

/-- A snapshot whose declared `Size` (4) disagrees with its 2-byte buffer
(`"AAA="` decodes to two zero bytes). -/
def mismatchedInput : JVal :=
  JVal.jobj [("Arr", JVal.jstr "AAA="), ("Size", JVal.jnum 4),
             ("K", JVal.jnum 1), ("Inserted", JVal.jnum 0)]

/-- A snapshot whose `Size` field has the wrong type. -/
def wrongTypeInput : JVal :=
  JVal.jobj [("Arr", JVal.jstr "AA=="), ("Size", JVal.jstr "four"),
             ("K", JVal.jnum 1), ("Inserted", JVal.jnum 0)]

/-- Counterexample to C6: `FromJSON` does **not** fail with a returned
error on every malformed input — a declared `Size`/`k` inconsistent with
the buffer length is accepted without any error (here `Size = 4` with a
2-byte buffer), and a wrong-typed field does not produce a returned error
but a process-terminating panic (the unchecked `.(float64)` assertion). -/
theorem c6_counterexample :
    isOkResult (FromJSON gen0 mismatchedInput) = true ∧
    okSize (FromJSON gen0 mismatchedInput) = some 4 ∧
    okArrLen (FromJSON gen0 mismatchedInput) = some 2 ∧
    isPanicResult (FromJSON gen0 wrongTypeInput) = true := by
  refine ⟨by decide, by decide, by decide, by decide⟩

/-- C6 as amended: `FromJSON` returns an error only for a non-object input
(the `json.Unmarshal` failure) or invalid base64 in `Arr`; a well-typed
object is accepted with **no** consistency check between the declared
`Size`/`K` and the decoded buffer length, and a wrong-typed (or missing)
field causes a panic rather than a returned error. -/
theorem c6_amended_fromjson (gen : Nat → Nat → String → List Nat)
    (size k ins : Nat) (astr : String) (bytes : List Nat)
    (hdec : decodeB64 astr.toList = some bytes) :
    FromJSON gen (JVal.jobj [("Arr", JVal.jstr astr), ("Size", JVal.jnum size),
      ("K", JVal.jnum k), ("Inserted", JVal.jnum ins)]) =
      GoResult.ok (Filter.mk bytes size k ins (gen size k)) ∧
    ∀ v : JVal, (∀ q : ℚ, v ≠ JVal.jnum q) →
      FromJSON gen (JVal.jobj [("Arr", JVal.jstr astr), ("Size", v),
        ("K", JVal.jnum k), ("Inserted", JVal.jnum ins)]) =
      GoResult.panicked "interface conversion" := by
  constructor
  · have hdec2 : decodeB64 astr.data = some bytes := hdec
    simp [FromJSON, List.lookup, asNum, asStr, GoResult.bind, hdec2, Nat.floor_natCast]
  · intro v hv
    cases v with
    | jnum q => exact absurd rfl (hv q)
    | jstr s => simp [FromJSON, List.lookup, asNum, GoResult.bind]
    | jbool b => simp [FromJSON, List.lookup, asNum, GoResult.bind]
    | jnull => simp [FromJSON, List.lookup, asNum, GoResult.bind]
    | jarr elems => simp [FromJSON, List.lookup, asNum, GoResult.bind]
    | jobj fields => simp [FromJSON, List.lookup, asNum, GoResult.bind]

/-- Closed witness for `c6_amended_fromjson` at the mismatched snapshot. -/
theorem c6_amended_fromjson_witness :
    FromJSON gen0 (JVal.jobj [("Arr", JVal.jstr "AAA="), ("Size", JVal.jnum 4),
      ("K", JVal.jnum 1), ("Inserted", JVal.jnum 0)]) =
      GoResult.ok (Filter.mk [0, 0] 4 1 0 (gen0 4 1)) ∧
    ∀ v : JVal, (∀ q : ℚ, v ≠ JVal.jnum q) →
      FromJSON gen0 (JVal.jobj [("Arr", JVal.jstr "AAA="), ("Size", v),
        ("K", JVal.jnum 1), ("Inserted", JVal.jnum 0)]) =
      GoResult.panicked "interface conversion" :=
  c6_amended_fromjson gen0 4 1 0 "AAA=" [0, 0] (by decide)

end Bloom
